import Mathlib

/-!
Verification of the entity / property update core of `sendtables/entity.go`
(demo-stream entity state decoding).

The Go source is shallowly embedded: machine integers become `Nat`/`Int`
with explicit wrap-around where Go overflow semantics matter, the bit
stream becomes an explicit cursor over an infinite predicate of bits,
Go panics become `Except` errors, and the observer callbacks stored in
`updateHandlers` / `onDestroy` become state transformers over an abstract
state type `σ` (a callback's side effect on the outside world is a
function `σ → σ`).  32-bit floats are modelled by exact rationals; all
float computations that appear in the claims (cell-coordinate arithmetic
on small integers plus a fractional offset, and the exact widening
float32 → float64) are exact in IEEE arithmetic at the relevant
magnitudes, so `Rat` is a faithful model there.  Intermediate pairs
returned by the bit reader are bound with explicit projections `.1`/`.2`
(definitionally the same as destructuring lets, but far easier to reason
about).
-/

/-- Modelled from the spec: the external Bit Decoder's stateful cursor
(§2, §6 of the spec; the low-level bit reading primitive is out of scope
of the core and only consumed).  A bitstream is an infinite predicate of
bits together with the cursor position. -/
structure BitReader where
  stream : Nat → Bool
  pos : Nat

/-- Modelled from the spec: `read_bit() -> bool` of the external Bit
Decoder; returns the bit under the cursor and advances the cursor. -/
def BitReader.readBit (r : BitReader) : Bool × BitReader :=
  (r.stream r.pos, ⟨r.stream, r.pos + 1⟩)

/-- Modelled from the spec: `read_uint(n) -> u64` of the external Bit
Decoder; reads `n` bits, first bit read being the least significant
(the bit order is internal to the external library and shared by every
consumer below, so no claim depends on it). -/
def BitReader.readInt : BitReader → Nat → Nat × BitReader
  | r, 0 => (0, r)
  | r, n + 1 =>
    let b := r.readBit
    let rest := b.2.readInt n
    (2 * rest.1 + (if b.1 then 1 else 0), rest.2)

/-- `flattenedPropEntry`: immutable schema metadata of one property
(owned by the class descriptor, external to `entity.go`; only its `name`
field is consumed by the embedded code). -/
structure flattenedPropEntry where
  name : String
deriving DecidableEq

/-- `ServerClass`: external class descriptor reference (opaque to
`entity.go`). -/
structure ServerClass where
  name : String
deriving DecidableEq

/-- `r3.Vector` of the geometry library, with exact-rational
components. -/
structure R3Vector where
  x : Rat
  y : Rat
  z : Rat
deriving DecidableEq

/-- `PropertyValue`: the decoded value of one property.  The Go struct
carries all variants as fields (`IntVal`, `FloatVal`, `StringVal`,
`VectorVal`, `ArrayVal`); it is recursive through `ArrayVal`. -/
inductive PropertyValue where
  | mk (intVal : Int) (floatVal : Rat) (stringVal : String)
      (vectorVal : R3Vector) (arrayVal : List PropertyValue)

/-- Field `IntVal` of `PropertyValue`. -/
def PropertyValue.IntVal : PropertyValue → Int
  | .mk i _ _ _ _ => i

/-- Field `FloatVal` of `PropertyValue` (a float32 in Go, exact here). -/
def PropertyValue.FloatVal : PropertyValue → Rat
  | .mk _ f _ _ _ => f

/-- Field `StringVal` of `PropertyValue`. -/
def PropertyValue.StringVal : PropertyValue → String
  | .mk _ _ s _ _ => s

/-- Field `VectorVal` of `PropertyValue`. -/
def PropertyValue.VectorVal : PropertyValue → R3Vector
  | .mk _ _ _ v _ => v

/-- Field `ArrayVal` of `PropertyValue`. -/
def PropertyValue.ArrayVal : PropertyValue → List PropertyValue
  | .mk _ _ _ _ a => a

/-- An update handler (`PropertyUpdateHandler` in Go): a callback fed the
new `PropertyValue`; its effect on the outside world is a state
transformer over `σ`. -/
def PropertyUpdateHandler (σ : Type) : Type :=
  PropertyValue → σ → σ

/-- `Property`: one named, typed, observable slot of an entity
(fields in source order: `entry`, `updateHandlers`, `value`). -/
structure Property (σ : Type) where
  entry : flattenedPropEntry
  updateHandlers : List (PropertyUpdateHandler σ)
  value : PropertyValue

/-- `Entity`: a game object with its ordered property list and lifecycle
callback lists. -/
structure Entity (σ : Type) where
  serverClass : ServerClass
  id : Int
  props : List (Property σ)
  onCreateFinished : List (σ → σ)
  onDestroy : List (σ → σ)

/- ## Field Index Decoder -/

/-- `readFieldIndex` of `entity.go`, translated statement by statement.
Go's `res & ^uint(96)` is `res &&& (2 ^ 64 - 97)` (`uint` is 64 bits wide
and `^96 = 2^64 - 1 - 96`); Go's short-circuit `newWay && reader.ReadBit()`
consumes a bit only when `newWay` is set; the Go `switch res & (32 | 64)`
becomes the if-chain on the same scrutinee. -/
def readFieldIndex (reader : BitReader) (lastIndex : Int) (newWay : Bool) :
    Int × BitReader :=
  let p1 := if newWay then reader.readBit else (false, reader)
  if newWay && p1.1 then
    -- NewWay A
    (lastIndex + 1, p1.2)
  else
    let p2 := if newWay then p1.2.readBit else (false, p1.2)
    let pres :=
      if newWay && p2.1 then
        -- NewWay B
        p2.2.readInt 3
      else
        let p7 := p2.2.readInt 7
        let step := p7.1 &&& (32 ||| 64)
        if step = 32 then
          let px := p7.2.readInt 2
          ((p7.1 &&& (2 ^ 64 - 97)) ||| (px.1 <<< 5), px.2)
        else if step = 64 then
          let px := p7.2.readInt 4
          ((p7.1 &&& (2 ^ 64 - 97)) ||| (px.1 <<< 5), px.2)
        else if step = 96 then
          let px := p7.2.readInt 7
          ((p7.1 &&& (2 ^ 64 - 97)) ||| (px.1 <<< 5), px.2)
        else p7
    -- end marker
    if pres.1 = 0xfff then (-1, pres.2)
    else (lastIndex + 1 + (pres.1 : Int), pres.2)

/-- Step 2 of the spec algorithm (§4.1), offset extension branch: read
`read_uint(7)`, inspect bits 5–6 (mask `0b1100000`), and for patterns
32/64/96 replace those bits with `read_uint(2)`/`read_uint(4)`/
`read_uint(7)` shifted left 5 (keeping bits 0–4, which is `res % 32` for
a 7-bit `res`); pattern 0 leaves `res` as read. -/
def specExtendedOffset (r : BitReader) : Nat × BitReader :=
  let p7 := r.readInt 7
  if p7.1 &&& 96 = 32 then
    let px := p7.2.readInt 2
    ((p7.1 % 32) ||| (px.1 <<< 5), px.2)
  else if p7.1 &&& 96 = 64 then
    let px := p7.2.readInt 4
    ((p7.1 % 32) ||| (px.1 <<< 5), px.2)
  else if p7.1 &&& 96 = 96 then
    let px := p7.2.readInt 7
    ((p7.1 % 32) ||| (px.1 <<< 5), px.2)
  else p7

/-- Step 2 of the spec algorithm (§4.1): the raw offset `res` is
`read_uint(3)` when `new_way` is set and the next bit is 1, else the
extended 7-bit offset. -/
def specRawOffset (r : BitReader) (newWay : Bool) : Nat × BitReader :=
  if newWay then
    let b := r.readBit
    if b.1 then b.2.readInt 3 else specExtendedOffset b.2
  else specExtendedOffset r

/-- The Field Index Decoder algorithm exactly as the specification
states it (§4.1), used as the comparator for the refinement claim:
step 1, the contiguous-run shortcut (`new_way` set and next bit 1 →
`previous + 1`); step 2, the raw offset; step 3, the `0xFFF` end-of-list
sentinel returning -1; step 4, `previous + 1 + res`. -/
def readFieldIndexSpec (reader : BitReader) (previous : Int) (newWay : Bool) :
    Int × BitReader :=
  if newWay && (reader.readBit).1 then (previous + 1, (reader.readBit).2)
  else
    let r1 := if newWay then (reader.readBit).2 else reader
    let pres := specRawOffset r1 newWay
    if pres.1 = 0xfff then (-1, pres.2)
    else (previous + 1 + (pres.1 : Int), pres.2)

theorem readInt_lt (n : Nat) : ∀ r : BitReader, (r.readInt n).1 < 2 ^ n := by
  induction n with
  | zero => intro r; simp [BitReader.readInt]
  | succ n ih =>
    intro r
    have h := ih (r.readBit).2
    simp only [BitReader.readInt]
    split <;> omega

theorem land_comp96_eq_mod32 : ∀ n, n < 128 → n &&& (2 ^ 64 - 97) = n % 32 := by
  decide

theorem lor32_64 : (32 : Nat) ||| 64 = 96 := by decide

theorem codeExtendedOffset_eq (r : BitReader) :
    (let p7 := r.readInt 7
     let step := p7.1 &&& (32 ||| 64)
     if step = 32 then
       let px := p7.2.readInt 2
       ((p7.1 &&& (2 ^ 64 - 97)) ||| (px.1 <<< 5), px.2)
     else if step = 64 then
       let px := p7.2.readInt 4
       ((p7.1 &&& (2 ^ 64 - 97)) ||| (px.1 <<< 5), px.2)
     else if step = 96 then
       let px := p7.2.readInt 7
       ((p7.1 &&& (2 ^ 64 - 97)) ||| (px.1 <<< 5), px.2)
     else p7) = specExtendedOffset r := by
  have hlt : (r.readInt 7).1 < 128 := readInt_lt 7 r
  have hland := land_comp96_eq_mod32 (r.readInt 7).1 hlt
  simp only [specExtendedOffset, lor32_64, hland]

theorem readFieldIndex_eq_spec (reader : BitReader) (lastIndex : Int)
    (newWay : Bool) :
    readFieldIndex reader lastIndex newWay =
      readFieldIndexSpec reader lastIndex newWay := by
  cases newWay with
  | false =>
    simp only [readFieldIndex, readFieldIndexSpec, specRawOffset,
      Bool.false_and, Bool.false_eq_true, if_false, codeExtendedOffset_eq]
  | true =>
    simp only [readFieldIndex, readFieldIndexSpec, specRawOffset,
      Bool.true_and, reduceIte]
    cases hb1 : (reader.readBit).1 with
    | true => simp
    | false =>
      simp only [hb1, Bool.false_eq_true, if_false]
      cases hb2 : ((reader.readBit).2.readBit).1 with
      | true => simp [hb2]
      | false =>
        have hland := land_comp96_eq_mod32 _
          (readInt_lt 7 ((reader.readBit).2.readBit).2)
        simp only [hb2, Bool.false_eq_true, if_false, specExtendedOffset,
          lor32_64, hland]

/-- C1: for every bitstream position, previous index and `new_way` flag,
`readFieldIndex` coincides with the specification's field-index
algorithm (contiguous-run shortcut, 3-bit short offset, 7-bit offset
with the 32/64/96 extension patterns, the `0xFFF` end-of-list sentinel
returning -1, and `previous + 1 + res` otherwise). -/
theorem readFieldIndex_follows_spec (reader : BitReader) (lastIndex : Int)
    (newWay : Bool) :
    readFieldIndex reader lastIndex newWay =
      readFieldIndexSpec reader lastIndex newWay :=
  readFieldIndex_eq_spec reader lastIndex newWay

/- ## Update application -/

variable {σ : Type}

/-- The fatal failure of the update path: a decoded property index
outside the entity's property list (the Go runtime bounds-check panic
on `e.props[idx]`). -/
inductive UpdateError where
  | indexOutOfRange (idx : Int)
deriving DecidableEq

/-- Modelled from the spec: the external Property Value decoder
(`propDecoder.decodeProp`, a collaborator the spec places out of scope:
"value decoding is index-type-directed, delegated to the Property Value
decoder", §4.2).  Kept abstract: a function from the property's schema
entry and the reader state to the decoded value and advanced reader;
every theorem quantifies over it. -/
def Decode : Type :=
  flattenedPropEntry → BitReader → PropertyValue × BitReader

/-- `Property.OnUpdate`: append a handler to the property's
update-handler list. -/
def Property.OnUpdate (pe : Property σ) (handler : PropertyUpdateHandler σ) :
    Property σ :=
  { pe with updateHandlers := pe.updateHandlers ++ [handler] }

/-- `Property.firePropertyUpdate`: invoke all registered handlers in
registration order, passing the property's current (just decoded) value.
(The Go loop skips `nil` handlers; a `nil` handler could only arise from
`Bind` with a value-type tag outside the enumeration, which the closed
`BindTargetRef` type below rules out, so handlers are total functions
here.) -/
def Property.firePropertyUpdate (pe : Property σ) (s : σ) : σ :=
  pe.updateHandlers.foldl (fun t h => h pe.value t) s

/-- The index-collection loop of `ApplyUpdate`
(`for idx = readFieldIndex(…); idx != -1; …`), with explicit fuel: the
Go loop is bounded in reality by the finite bitstream, while the model's
bitstream is infinite, so the loop is given a step budget; every theorem
quantifies over the fuel. -/
def readFieldIndices (fuel : Nat) (r : BitReader) (lastIndex : Int)
    (newWay : Bool) : List Int × BitReader :=
  match fuel with
  | 0 => ([], r)
  | fuel + 1 =>
    let p := readFieldIndex r lastIndex newWay
    if p.1 = -1 then ([], p.2)
    else
      let rest := readFieldIndices fuel p.2 p.1 newWay
      (p.1 :: rest.1, rest.2)

/-- The second loop of `ApplyUpdate`: for each collected index in list
order, decode the property's new value
(`propDecoder.decodeProp(&e.props[idx], reader)`) and fire its update
handlers.  A negative or too-large index is the Go runtime panic of
`e.props[idx]`, returned as `UpdateError.indexOutOfRange`. -/
def applyProps (dec : Decode) :
    Entity σ → List Int → BitReader → σ →
      Except UpdateError (Entity σ × σ × BitReader)
  | e, [], r, s => .ok (e, s, r)
  | e, idx :: rest, r, s =>
    if idx < 0 then .error (.indexOutOfRange idx)
    else
      match e.props.get? idx.toNat with
      | none => .error (.indexOutOfRange idx)
      | some p =>
        let d := dec p.entry r
        let p' := { p with value := d.1 }
        applyProps dec { e with props := e.props.set idx.toNat p' } rest d.2
          (p'.firePropertyUpdate s)

/-- `Entity.ApplyUpdate`: read one `new_way` bit, collect the changed
property indices by iterating `readFieldIndex` from -1 until the -1
sentinel, then decode each changed property's value in list order and
fire its update handlers.  (The Go scratch-slice pool
`updatedPropIndicesPool` is an allocation optimisation with no
observable effect on the result and is not modelled.) -/
def Entity.ApplyUpdate (e : Entity σ) (dec : Decode) (fuel : Nat)
    (reader : BitReader) (s : σ) :
    Except UpdateError (Entity σ × σ × BitReader) :=
  let b := reader.readBit
  let collected := readFieldIndices fuel b.2 (-1) b.1
  applyProps dec e collected.1 collected.2 s

/-- The changed-index list as the specification words it (§4.1
contract): drive the specification's Field Index Decoder from
previous = -1 until the sentinel. -/
def readFieldIndicesSpec (fuel : Nat) (r : BitReader) (previous : Int)
    (newWay : Bool) : List Int × BitReader :=
  match fuel with
  | 0 => ([], r)
  | fuel + 1 =>
    let p := readFieldIndexSpec r previous newWay
    if p.1 = -1 then ([], p.2)
    else
      let rest := readFieldIndicesSpec fuel p.2 p.1 newWay
      (p.1 :: rest.1, rest.2)

/-- Update application as the specification words it (§4.2): for each
index in list order, first check it lies inside the property-count range
(an out-of-range index stops the application as a fatal failure), then
decode that property's new value from the same reader and fire that
property's observers synchronously in registration order, passing the
new value. -/
def applyPropsSpec (dec : Decode) :
    Entity σ → List Int → BitReader → σ →
      Except UpdateError (Entity σ × σ × BitReader)
  | e, [], r, s => .ok (e, s, r)
  | e, idx :: rest, r, s =>
    if 0 ≤ idx ∧ idx < (e.props.length : Int) then
      match e.props.get? idx.toNat with
      | some p =>
        let d := dec p.entry r
        let fired := p.updateHandlers.foldl (fun t handler => handler d.1 t) s
        applyPropsSpec dec
          { e with props := e.props.set idx.toNat { p with value := d.1 } }
          rest d.2 fired
      | none => .error (.indexOutOfRange idx)
    else .error (.indexOutOfRange idx)

/-- `apply_update` as the specification words it (§4.2): read one
`new_way` bit, build the complete ordered list of changed indices, then
apply them in order. -/
def applyUpdateSpec (e : Entity σ) (dec : Decode) (fuel : Nat)
    (reader : BitReader) (s : σ) :
    Except UpdateError (Entity σ × σ × BitReader) :=
  let b := reader.readBit
  let collected := readFieldIndicesSpec fuel b.2 (-1) b.1
  applyPropsSpec dec e collected.1 collected.2 s

theorem readFieldIndex_sentinel_or_gt (r : BitReader) (lastIndex : Int)
    (newWay : Bool) :
    (readFieldIndex r lastIndex newWay).1 = -1 ∨
      lastIndex < (readFieldIndex r lastIndex newWay).1 := by
  rw [readFieldIndex_eq_spec]
  simp only [readFieldIndexSpec]
  split_ifs <;> simp <;> omega

theorem readFieldIndices_chain (fuel : Nat) :
    ∀ (r : BitReader) (lastIndex : Int) (newWay : Bool),
      List.Chain (· < ·) lastIndex
        (readFieldIndices fuel r lastIndex newWay).1 := by
  induction fuel with
  | zero => intro r last nw; exact List.Chain.nil
  | succ fuel ih =>
    intro r last nw
    simp only [readFieldIndices]
    split
    · exact List.Chain.nil
    · rename_i h
      rcases readFieldIndex_sentinel_or_gt r last nw with hs | hlt
      · exact absurd hs h
      · exact List.Chain.cons hlt (ih _ _ _)

theorem readFieldIndices_eq_spec (fuel : Nat) :
    ∀ (r : BitReader) (lastIndex : Int) (newWay : Bool),
      readFieldIndices fuel r lastIndex newWay =
        readFieldIndicesSpec fuel r lastIndex newWay := by
  induction fuel with
  | zero => intro r last nw; rfl
  | succ fuel ih =>
    intro r last nw
    simp only [readFieldIndices, readFieldIndicesSpec,
      ← readFieldIndex_eq_spec, ih]

theorem applyProps_eq_spec (dec : Decode) :
    ∀ (idxs : List Int) (e : Entity σ) (r : BitReader) (s : σ),
      applyProps dec e idxs r s = applyPropsSpec dec e idxs r s := by
  intro idxs
  induction idxs with
  | nil => intro e r s; rfl
  | cons idx rest ih =>
    intro e r s
    simp only [applyProps, applyPropsSpec]
    by_cases hneg : idx < 0
    · rw [if_pos hneg, if_neg (by omega)]
    · rw [if_neg hneg]
      by_cases hlen : idx < (e.props.length : Int)
      · rw [if_pos ⟨by omega, hlen⟩]
        cases hp : e.props.get? idx.toNat with
        | none => rfl
        | some p => exact ih _ _ _
      · rw [if_neg (by omega)]
        have hnone : e.props.get? idx.toNat = none := by
          rw [List.get?_eq_none]
          omega
        rw [hnone]

/-- C2: `ApplyUpdate` reads exactly one `new_way` bit, then collects the
changed indices by iterating `readFieldIndex` from previous = -1 until
the sentinel; that collected list is strictly increasing (every element
exceeds its predecessor, the first exceeding -1, so all are
nonnegative); and the whole update coincides with the specification's
`apply_update`: the values are decoded and each changed property's
observers fired synchronously in exactly that ascending index order, in
handler-registration order within one property, each handler receiving
the newly decoded value. -/
theorem applyUpdate_ordered_firing (σ : Type) (e : Entity σ) (dec : Decode)
    (fuel : Nat) (reader : BitReader) (s : σ) :
    List.Chain (· < ·) (-1)
      (readFieldIndices fuel (reader.readBit).2 (-1) (reader.readBit).1).1 ∧
    e.ApplyUpdate dec fuel reader s = applyUpdateSpec e dec fuel reader s := by
  constructor
  · exact readFieldIndices_chain fuel _ _ _
  · simp only [Entity.ApplyUpdate, applyUpdateSpec, readFieldIndices_eq_spec,
      applyProps_eq_spec]

theorem applyProps_out_of_range (dec : Decode) :
    ∀ (idxs : List Int) (e : Entity σ) (r : BitReader) (s : σ),
      (∃ i ∈ idxs, i < 0 ∨ (e.props.length : Int) ≤ i) →
      ∃ j, (j < 0 ∨ (e.props.length : Int) ≤ j) ∧
        applyProps dec e idxs r s = .error (.indexOutOfRange j) := by
  intro idxs
  induction idxs with
  | nil =>
    intro e r s h
    rcases h with ⟨i, hi, _⟩
    cases hi
  | cons idx rest ih =>
    intro e r s h
    by_cases hbad : idx < 0 ∨ (e.props.length : Int) ≤ idx
    · refine ⟨idx, hbad, ?_⟩
      simp only [applyProps]
      rcases hbad with hneg | hbig
      · rw [if_pos hneg]
      · rw [if_neg (by omega)]
        have hnone : e.props.get? idx.toNat = none := by
          rw [List.get?_eq_none]
          omega
        rw [hnone]
    · push_neg at hbad
      obtain ⟨h0, hlen⟩ := hbad
      rcases h with ⟨i, hi, hout⟩
      rcases List.mem_cons.mp hi with rfl | hmem
      · rcases hout with hneg | hbig
        · omega
        · omega
      · simp only [applyProps]
        rw [if_neg (by omega)]
        cases hp : e.props.get? idx.toNat with
        | none =>
          rw [List.get?_eq_none] at hp
          omega
        | some p =>
          have hrec := ih
            { e with props :=
                (e.props.set idx.toNat { p with value := (dec p.entry r).1 }) }
            (dec p.entry r).2
            (Property.firePropertyUpdate { p with value := (dec p.entry r).1 } s)
            ⟨i, hmem, by simpa [List.length_set] using hout⟩
          simpa [List.length_set] using hrec

/-- C4: if any collected changed-property index lies outside
`[0, props.length)`, `ApplyUpdate` stops with the fatal
`indexOutOfRange` failure (the Go bounds-check panic on `e.props[idx]`)
instead of silently ignoring the index; no out-of-range write occurs
(every model write is a `List.set` at an index checked in range first). -/
theorem applyUpdate_out_of_range_fatal (σ : Type) (e : Entity σ)
    (dec : Decode) (fuel : Nat) (reader : BitReader) (s : σ)
    (hbad : ∃ i ∈ (readFieldIndices fuel (reader.readBit).2 (-1)
        (reader.readBit).1).1, i < 0 ∨ (e.props.length : Int) ≤ i) :
    ∃ j, (j < 0 ∨ (e.props.length : Int) ≤ j) ∧
      e.ApplyUpdate dec fuel reader s = .error (.indexOutOfRange j) :=
  applyProps_out_of_range dec _ e _ s hbad

/-- A fixed default property value for concrete test entities. -/
def pvZero : PropertyValue := .mk 0 0 "" ⟨0, 0, 0⟩ []

/-- A concrete property with the given name, no handlers and the zero
value. -/
def testProp (n : String) : Property Unit := ⟨⟨n⟩, [], pvZero⟩

/-- The all-zero bitstream positioned at 0. -/
def testReaderFalse : BitReader := ⟨fun _ => false, 0⟩

/-- A concrete abstract value decoder that consumes nothing and returns
the zero value. -/
def testDecode : Decode := fun _ r => (pvZero, r)

/-- A concrete one-property entity. -/
def testEntity1 : Entity Unit := ⟨⟨"C"⟩, 1, [testProp "a"], [], []⟩

theorem applyUpdate_out_of_range_fatal_witness :
    (∃ i ∈ (readFieldIndices 3 (testReaderFalse.readBit).2 (-1)
        (testReaderFalse.readBit).1).1,
        i < 0 ∨ (testEntity1.props.length : Int) ≤ i) ∧
    ∃ j, (j < 0 ∨ (testEntity1.props.length : Int) ≤ j) ∧
      testEntity1.ApplyUpdate testDecode 3 testReaderFalse () =
        .error (.indexOutOfRange j) :=
  ⟨by decide, applyUpdate_out_of_range_fatal Unit testEntity1 testDecode 3
    testReaderFalse () (by decide)⟩

/- ## Property lookup and binding -/

/-- The Go panic message of `FindProperty` for a duplicated name. -/
def duplicateNameMsg (name : String) : String :=
  "More than one property with name \"" ++ name ++ "\" found"

/-- The Go runtime panic raised when `Bind` is reached through the nil
pointer returned by a failed `FindProperty` lookup. -/
def nilDereferenceMsg : String :=
  "runtime error: invalid memory address or nil pointer dereference"

/-- The linear scan of `FindProperty`: walk the property list remembering
the first match's index (the `prop` pointer in Go); a second match is the
duplicate-name panic.  `i` is the absolute index of the list head. -/
def findPropertyAux (name : String) :
    List (Property σ) → Option Nat → Nat → Except String (Option Nat)
  | [], acc, _ => .ok acc
  | p :: ps, acc, i =>
    if p.entry.name = name then
      match acc with
      | some _ => .error (duplicateNameMsg name)
      | none => findPropertyAux name ps (some i) (i + 1)
    else findPropertyAux name ps acc (i + 1)

/-- `Entity.FindProperty`: linear scan by name; `.ok none` is the Go nil
result (absence), `.ok (some i)` the pointer to `props[i]`, `.error` the
duplicate-name panic. -/
def Entity.FindProperty (e : Entity σ) (name : String) :
    Except String (Option Nat) :=
  findPropertyAux name e.props none 0

/-- The number of properties in a list that carry a given name. -/
def matchCount (props : List (Property σ)) (name : String) : Nat :=
  List.countP (fun p => decide (p.entry.name = name)) props

theorem findPropertyAux_no_match (name : String) :
    ∀ (ps : List (Property σ)) (acc : Option Nat) (i : Nat),
      matchCount ps name = 0 →
      findPropertyAux name ps acc i = .ok acc := by
  intro ps
  induction ps with
  | nil => intro acc i _; rfl
  | cons p ps ih =>
    intro acc i h
    simp only [matchCount, List.countP_cons] at h
    by_cases hn : p.entry.name = name
    · simp [hn] at h
    · simp only [findPropertyAux, if_neg hn]
      exact ih acc (i + 1) (by simpa [matchCount, hn] using h)

theorem findPropertyAux_dup_after (name : String) :
    ∀ (ps : List (Property σ)) (j : Nat) (i : Nat),
      1 ≤ matchCount ps name →
      findPropertyAux name ps (some j) i = .error (duplicateNameMsg name) := by
  intro ps
  induction ps with
  | nil => intro j i h; simp [matchCount] at h
  | cons p ps ih =>
    intro j i h
    by_cases hn : p.entry.name = name
    · simp only [findPropertyAux, if_pos hn]
    · simp only [findPropertyAux, if_neg hn]
      exact ih j (i + 1)
        (by simpa [matchCount, List.countP_cons, hn] using h)

theorem findPropertyAux_unique (name : String) :
    ∀ (ps : List (Property σ)) (i : Nat),
      matchCount ps name = 1 →
      ∃ k p, findPropertyAux name ps none i = .ok (some (i + k)) ∧
        ps.get? k = some p ∧ p.entry.name = name := by
  intro ps
  induction ps with
  | nil => intro i h; simp [matchCount] at h
  | cons p ps ih =>
    intro i h
    by_cases hn : p.entry.name = name
    · have htail : matchCount ps name = 0 := by
        simp only [matchCount, List.countP_cons, hn] at h ⊢
        simp at h
        simpa [matchCount] using h
      refine ⟨0, p, ?_, rfl, hn⟩
      simp only [findPropertyAux, if_pos hn]
      rw [findPropertyAux_no_match name ps (some i) (i + 1) htail]
      simp
    · have htail : matchCount ps name = 1 := by
        simpa [matchCount, List.countP_cons, hn] using h
      obtain ⟨k, q, hq1, hq2, hq3⟩ := ih (i + 1) htail
      refine ⟨k + 1, q, ?_, by simpa using hq2, hq3⟩
      simp only [findPropertyAux, if_neg hn]
      rw [hq1]
      have harith : i + 1 + k = i + (k + 1) := by omega
      rw [harith]

theorem findPropertyAux_dup (name : String) :
    ∀ (ps : List (Property σ)) (i : Nat),
      2 ≤ matchCount ps name →
      findPropertyAux name ps none i = .error (duplicateNameMsg name) := by
  intro ps
  induction ps with
  | nil => intro i h; simp [matchCount] at h
  | cons p ps ih =>
    intro i h
    by_cases hn : p.entry.name = name
    · simp only [findPropertyAux, if_pos hn]
      refine findPropertyAux_dup_after name ps i (i + 1) ?_
      have h' : matchCount ps name + 1 = matchCount (p :: ps) name := by
        simp [matchCount, List.countP_cons, hn]
      omega
    · simp only [findPropertyAux, if_neg hn]
      exact ih (i + 1) (by simpa [matchCount, List.countP_cons, hn] using h)

/-- C5: `FindProperty` by name, for any placement of the matches in the
property list: a uniquely named property is found (`.ok (some k)` with
`props[k]` carrying the name), an absent name reports absence
(`.ok none`, the Go nil), and a duplicated name is the fatal
duplicate-name panic (`.error`), never a silent pick. -/
theorem findProperty_cases (σ : Type) (e : Entity σ) (name : String) :
    (matchCount e.props name = 1 →
      ∃ k p, e.FindProperty name = .ok (some k) ∧ e.props.get? k = some p ∧
        p.entry.name = name) ∧
    (matchCount e.props name = 0 → e.FindProperty name = .ok none) ∧
    (2 ≤ matchCount e.props name →
      e.FindProperty name = .error (duplicateNameMsg name)) := by
  refine ⟨?_, ?_, ?_⟩
  · intro h
    obtain ⟨k, p, h1, h2, h3⟩ := findPropertyAux_unique name e.props 0 h
    exact ⟨k, p, by simpa using h1, h2, h3⟩
  · intro h
    exact findPropertyAux_no_match name e.props none 0 h
  · intro h
    exact findPropertyAux_dup name e.props 0 h

/-- A concrete two-property entity (names "b" then "a"). -/
def testEntityBA : Entity Unit :=
  ⟨⟨"C"⟩, 1, [testProp "b", testProp "a"], [], []⟩

theorem findProperty_cases_witness :
    matchCount testEntityBA.props "a" = 1 ∧
    ∃ k p, testEntityBA.FindProperty "a" = .ok (some k) ∧
      testEntityBA.props.get? k = some p ∧ p.entry.name = "a" :=
  ⟨by decide, (findProperty_cases Unit testEntityBA "a").1 (by decide)⟩

/-- The `propertyValueType` enumeration of the source fused with the
bound target location: the Go pair `(variable interface{}, valueType
propertyValueType)` is modelled as the closed tagged enumeration the
spec recommends (§9: one variant per supported value shape, each
carrying a strongly typed destination handle).  Each constructor carries
the setter of the caller's variable, a location in the external state
`σ`. -/
inductive BindTargetRef (σ : Type) where
  | ValTypeInt (target : Int → σ → σ)
  | ValTypeBoolInt (target : Bool → σ → σ)
  | ValTypeFloat32 (target : Rat → σ → σ)
  | ValTypeFloat64 (target : Rat → σ → σ)
  | ValTypeString (target : String → σ → σ)
  | ValTypeVector (target : R3Vector → σ → σ)
  | ValTypeArray (target : List PropertyValue → σ → σ)

/-- The Go conversion `float64(val.FloatVal)`: widening a float32 to
float64 is exact on every representable value, hence the identity in the
rational model. -/
def float32ToFloat64 (x : Rat) : Rat := x

/-- The `binder` closure selected by `Property.Bind`'s
`switch valueType` (one conversion per supported kind, written into the
bound variable). -/
def mkBinder : BindTargetRef σ → PropertyUpdateHandler σ
  | .ValTypeInt t => fun val => t val.IntVal
  | .ValTypeBoolInt t => fun val => t (val.IntVal == 1)
  | .ValTypeFloat32 t => fun val => t val.FloatVal
  | .ValTypeFloat64 t => fun val => t (float32ToFloat64 val.FloatVal)
  | .ValTypeString t => fun val => t val.StringVal
  | .ValTypeVector t => fun val => t val.VectorVal
  | .ValTypeArray t => fun val => t val.ArrayVal

/-- `Property.Bind`: install the conversion observer for the bound
variable (via `OnUpdate`); it does not read or write the current value
or the external state at bind time. -/
def Property.Bind (pe : Property σ) (t : BindTargetRef σ) : Property σ :=
  pe.OnUpdate (mkBinder t)

/-- `Entity.BindProperty` — `FindProperty` then `Bind` on the returned
pointer: absence (the nil pointer) becomes the Go nil-pointer-dereference
panic; a duplicate name propagates `FindProperty`'s panic. -/
def Entity.BindProperty (e : Entity σ) (name : String) (t : BindTargetRef σ) :
    Except String (Entity σ) :=
  match e.FindProperty name with
  | .error msg => .error msg
  | .ok none => .error nilDereferenceMsg
  | .ok (some i) =>
    match e.props.get? i with
    | some p => .ok { e with props := e.props.set i (p.Bind t) }
    | none => .error nilDereferenceMsg

/-- C6: `Bind` installs exactly one more observer and neither reads nor
writes the property's current value at bind time (value and entry are
untouched, and `Bind` has no access to the external state, so the bound
variable keeps its caller-supplied value); on each subsequent update
(firing with the new value `v`) the bound target is written with the
converted value, after the previously registered handlers ran:
Int → the integer value; BoolInt → true iff the integer value equals 1
(any other integer yields false); Float32 → the 32-bit float as-is;
Float64 → the 32-bit float widened to 64 bits; String → the text;
Vector → the 3-component vector; Array → the sequence of
PropertyValue. -/
theorem bind_conversions (σ : Type) (pe : Property σ) (t : BindTargetRef σ)
    (v : PropertyValue) (s : σ) :
    (pe.Bind t).value = pe.value ∧
    (pe.Bind t).entry = pe.entry ∧
    (pe.Bind t).updateHandlers.length = pe.updateHandlers.length + 1 ∧
    Property.firePropertyUpdate { pe.Bind t with value := v } s =
      (match t with
        | .ValTypeInt tgt => tgt v.IntVal
        | .ValTypeBoolInt tgt => tgt (decide (v.IntVal = 1))
        | .ValTypeFloat32 tgt => tgt v.FloatVal
        | .ValTypeFloat64 tgt => tgt (float32ToFloat64 v.FloatVal)
        | .ValTypeString tgt => tgt v.StringVal
        | .ValTypeVector tgt => tgt v.VectorVal
        | .ValTypeArray tgt => tgt v.ArrayVal)
        (Property.firePropertyUpdate { pe with value := v } s) := by
  refine ⟨rfl, rfl, by simp [Property.Bind, Property.OnUpdate], ?_⟩
  cases t with
  | ValTypeInt tgt =>
    simp [Property.Bind, Property.OnUpdate, Property.firePropertyUpdate,
      mkBinder, List.foldl_append]
  | ValTypeBoolInt tgt =>
    simp only [Property.Bind, Property.OnUpdate, Property.firePropertyUpdate,
      mkBinder, List.foldl_append, List.foldl_cons, List.foldl_nil]
    by_cases h : v.IntVal = 1
    · simp [h]
    · rw [beq_eq_false_iff_ne.mpr h]
      simp [h]
  | ValTypeFloat32 tgt =>
    simp [Property.Bind, Property.OnUpdate, Property.firePropertyUpdate,
      mkBinder, List.foldl_append]
  | ValTypeFloat64 tgt =>
    simp [Property.Bind, Property.OnUpdate, Property.firePropertyUpdate,
      mkBinder, List.foldl_append]
  | ValTypeString tgt =>
    simp [Property.Bind, Property.OnUpdate, Property.firePropertyUpdate,
      mkBinder, List.foldl_append]
  | ValTypeVector tgt =>
    simp [Property.Bind, Property.OnUpdate, Property.firePropertyUpdate,
      mkBinder, List.foldl_append]
  | ValTypeArray tgt =>
    simp [Property.Bind, Property.OnUpdate, Property.firePropertyUpdate,
      mkBinder, List.foldl_append]

/-- C10: `BindProperty` never reports absence to the caller: an absent
name makes it dereference `FindProperty`'s nil result (the Go
nil-pointer panic), and a duplicated name propagates the duplicate-name
panic — it is well-defined only when exactly one property carries the
name. -/
theorem bindProperty_requires_unique_name (σ : Type) (e : Entity σ)
    (name : String) (t : BindTargetRef σ) :
    (matchCount e.props name = 0 →
      e.BindProperty name t = .error nilDereferenceMsg) ∧
    (2 ≤ matchCount e.props name →
      e.BindProperty name t = .error (duplicateNameMsg name)) := by
  constructor
  · intro h
    have hfp := findPropertyAux_no_match name e.props none 0 h
    simp only [Entity.BindProperty, Entity.FindProperty, hfp]
  · intro h
    have hfp := findPropertyAux_dup name e.props 0 h
    simp only [Entity.BindProperty, Entity.FindProperty, hfp]

theorem bindProperty_requires_unique_name_witness :
    matchCount testEntity1.props "zz" = 0 ∧
    testEntity1.BindProperty "zz" (.ValTypeInt (fun _ s => s)) =
      .error nilDereferenceMsg :=
  ⟨by decide, (bindProperty_requires_unique_name Unit testEntity1 "zz"
    (.ValTypeInt (fun _ s => s))).1 (by decide)⟩

/- ## Lifecycle -/

/-- `Entity.OnDestroy`: register a destruction callback (appended to the
list). -/
def Entity.OnDestroy (e : Entity σ) (delegate : σ → σ) : Entity σ :=
  { e with onDestroy := e.onDestroy ++ [delegate] }

/-- `Entity.Destroy`: invoke every registered `onDestroy` callback in
registration order.  Nothing clears the list or guards against a second
call. -/
def Entity.Destroy (e : Entity σ) (s : σ) : σ :=
  e.onDestroy.foldl (fun t f => f t) s

/-- `Entity.OnCreateFinished`: register a creation-finished callback
(the core only exposes the registration point). -/
def Entity.OnCreateFinished (e : Entity σ) (delegate : σ → σ) : Entity σ :=
  { e with onCreateFinished := e.onCreateFinished ++ [delegate] }

/-- An entity with no properties and no callbacks. -/
def emptyEntity (σ : Type) : Entity σ := ⟨⟨"C"⟩, 0, [], [], []⟩

/-- An entity whose single registered destruction callback increments a
counter. -/
def destroyCounterEntity : Entity Nat :=
  (emptyEntity Nat).OnDestroy (fun n => n + 1)

/-- C7 counterexample: an entity with one registered `on_destroy`
callback, a counter increment.  One `Destroy` invokes it once, but a
second `Destroy` invokes it again: after two `Destroy` calls the
callback has run twice, not exactly once over the entity's lifetime —
nothing in the code guards against double destruction or clears the
callback list. -/
theorem destroy_twice_refires :
    destroyCounterEntity.Destroy 0 = 1 ∧
    destroyCounterEntity.Destroy (destroyCounterEntity.Destroy 0) = 2 := by
  constructor <;> rfl

/-- Register one tagged trace-appending destruction callback per element
of `fs`, in order, on the empty entity. -/
def registerTagged (fs : List Nat) : Entity (List Nat) :=
  fs.foldl (fun e i => e.OnDestroy (fun tr => tr ++ [i]))
    (emptyEntity (List Nat))

theorem registerTagged_onDestroy_from (fs : List Nat) :
    ∀ e : Entity (List Nat),
      (fs.foldl (fun e i => e.OnDestroy (fun tr => tr ++ [i])) e).onDestroy =
        e.onDestroy ++ fs.map (fun i => fun tr => tr ++ [i]) := by
  induction fs with
  | nil => intro e; simp
  | cons i fs ih =>
    intro e
    simp only [List.foldl_cons, List.map_cons]
    rw [ih]
    simp [Entity.OnDestroy]

theorem foldl_taggedAppenders (fs : List Nat) :
    ∀ tr : List Nat,
      (fs.map (fun i => fun tr => tr ++ [i])).foldl (fun t f => f t) tr =
        tr ++ fs := by
  induction fs with
  | nil => intro tr; simp
  | cons i fs ih =>
    intro tr
    simp only [List.map_cons, List.foldl_cons]
    rw [ih]
    simp

/-- C7 amended: each `Destroy()` call invokes every registered
`on_destroy` callback exactly once per call, in registration order
(destroying with an empty trace records exactly the registration tags,
once each, in order) — but the code does not prevent a second `Destroy`
call from invoking all of them again: the trace after two calls is the
tag list twice. -/
theorem destroy_fires_once_per_call (fs : List Nat) :
    (registerTagged fs).Destroy [] = fs ∧
    (registerTagged fs).Destroy ((registerTagged fs).Destroy []) =
      fs ++ fs := by
  have hd : ∀ tr : List Nat, (registerTagged fs).Destroy tr = tr ++ fs := by
    intro tr
    show ((registerTagged fs).onDestroy).foldl (fun t f => f t) tr = tr ++ fs
    rw [registerTagged, registerTagged_onDestroy_from]
    simpa using foldl_taggedAppenders fs tr
  refine ⟨by simpa using hd [], ?_⟩
  rw [hd, hd]
  simp

/- ## Derived position -/

/-- `maxCoordInt` of the source. -/
def maxCoordInt : Int := 16384

/-- Reinterpret a value below `2^64` as a signed 64-bit integer (two's
complement), as Go does for `int` results. -/
def toSigned64 (n : Nat) : Int :=
  if n < 2 ^ 63 then (n : Int) else (n : Int) - 2 ^ 64

/-- 64-bit two's-complement wrap-around of integer arithmetic (Go `int`
overflow semantics). -/
def intWrap64 (x : Int) : Int :=
  toSigned64 ((x % (2 ^ 64 : Int)).toNat)

/-- Go's `cellWidth := 1 << uint(bits)`: the shift count is `bits`
converted to `uint` (64-bit two's complement); a shift by 64 or more
yields 0, and the result is reinterpreted as a signed `int`. -/
def goCellWidth (bits : Int) : Int :=
  let s := (bits % (2 ^ 64 : Int)).toNat
  if s < 64 then toSigned64 (2 ^ s) else 0

/-- `coordFromCell` of the source:
`float64(cell*cellWidth-maxCoordInt) + offset`, with Go `int` (64-bit
wrap-around) arithmetic inside the cast.  The int → float64 conversion
is exact for magnitudes below 2^53 (guaranteed by the position theorem's
bounds), so the rational value is the exact result. -/
def coordFromCell (cell cellWidth : Int) (offset : Rat) : Rat :=
  ((intWrap64 (cell * cellWidth - maxCoordInt) : Int) : Rat) + offset

/-- Dereference the `*Property` returned by `FindProperty`, as
`Position` does five times: Go panics with a nil-pointer dereference
when the lookup found nothing, and propagates the duplicate-name
panic. -/
def Entity.derefProperty (e : Entity σ) (name : String) :
    Except String (Property σ) :=
  match e.FindProperty name with
  | .error msg => .error msg
  | .ok none => .error nilDereferenceMsg
  | .ok (some i) =>
    match e.props.get? i with
    | some p => .ok p
    | none => .error nilDereferenceMsg

/-- `Entity.Position`: reconstruct world coordinates from the cell-width
exponent (`m_cellbits`), the three cell coordinates (`m_cellX/Y/Z`) and
the fine offset vector (`m_vecOrigin`); lookups fail in evaluation
order. -/
def Entity.Position (e : Entity σ) : Except String R3Vector :=
  match e.derefProperty "m_cellbits" with
  | .error msg => .error msg
  | .ok cellbits =>
    match e.derefProperty "m_cellX" with
    | .error msg => .error msg
    | .ok propX =>
      match e.derefProperty "m_cellY" with
      | .error msg => .error msg
      | .ok propY =>
        match e.derefProperty "m_cellZ" with
        | .error msg => .error msg
        | .ok propZ =>
          match e.derefProperty "m_vecOrigin" with
          | .error msg => .error msg
          | .ok origin =>
            let cellWidth := goCellWidth cellbits.value.IntVal
            .ok
              ⟨coordFromCell propX.value.IntVal cellWidth
                  origin.value.VectorVal.x,
               coordFromCell propY.value.IntVal cellWidth
                  origin.value.VectorVal.y,
               coordFromCell propZ.value.IntVal cellWidth
                  origin.value.VectorVal.z⟩

theorem intWrap64_eq_of_bounds (x : Int) (h1 : -(2 ^ 63) ≤ x)
    (h2 : x < 2 ^ 63) : intWrap64 x = x := by
  unfold intWrap64 toSigned64
  split <;> omega

theorem goCellWidth_eq_of_exp (b : Int) (h1 : 0 ≤ b) (h2 : b < 63) :
    goCellWidth b = 2 ^ b.toNat := by
  unfold goCellWidth toSigned64
  have hb : b % (2 ^ 64 : Int) = b := by omega
  rw [hb]
  have hs : b.toNat < 64 := by omega
  rw [if_pos hs]
  have hlt : (2 : Nat) ^ b.toNat < 2 ^ 63 := by
    exact Nat.pow_lt_pow_right (by norm_num) (by omega)
  rw [if_pos hlt]
  push_cast
  rfl

/-- C9: when the five position properties are present (each lookup
returning a property), with a cell exponent in `[0, 63)` and cell
products in the wrap-free range, `Position` returns per axis
`cell * cell_width - 16384 + offset_component` with
`cell_width = 2 ^ exponent` (i.e. `1 << exponent`). -/
theorem position_formula (σ : Type) (e : Entity σ)
    (pcb px py pz po : Property σ)
    (hcb : e.derefProperty "m_cellbits" = .ok pcb)
    (hx : e.derefProperty "m_cellX" = .ok px)
    (hy : e.derefProperty "m_cellY" = .ok py)
    (hz : e.derefProperty "m_cellZ" = .ok pz)
    (ho : e.derefProperty "m_vecOrigin" = .ok po)
    (he1 : 0 ≤ pcb.value.IntVal) (he2 : pcb.value.IntVal < 63)
    (hbx1 : -(2 ^ 63) ≤ px.value.IntVal * 2 ^ pcb.value.IntVal.toNat - 16384)
    (hbx2 : px.value.IntVal * 2 ^ pcb.value.IntVal.toNat - 16384 < 2 ^ 63)
    (hby1 : -(2 ^ 63) ≤ py.value.IntVal * 2 ^ pcb.value.IntVal.toNat - 16384)
    (hby2 : py.value.IntVal * 2 ^ pcb.value.IntVal.toNat - 16384 < 2 ^ 63)
    (hbz1 : -(2 ^ 63) ≤ pz.value.IntVal * 2 ^ pcb.value.IntVal.toNat - 16384)
    (hbz2 : pz.value.IntVal * 2 ^ pcb.value.IntVal.toNat - 16384 < 2 ^ 63) :
    e.Position = .ok
      ⟨((px.value.IntVal * 2 ^ pcb.value.IntVal.toNat - 16384 : Int) : Rat)
          + po.value.VectorVal.x,
       ((py.value.IntVal * 2 ^ pcb.value.IntVal.toNat - 16384 : Int) : Rat)
          + po.value.VectorVal.y,
       ((pz.value.IntVal * 2 ^ pcb.value.IntVal.toNat - 16384 : Int) : Rat)
          + po.value.VectorVal.z⟩ := by
  simp only [Entity.Position, hcb, hx, hy, hz, ho]
  simp only [coordFromCell, maxCoordInt, goCellWidth_eq_of_exp _ he1 he2]
  rw [intWrap64_eq_of_bounds _ hbx1 hbx2, intWrap64_eq_of_bounds _ hby1 hby2,
    intWrap64_eq_of_bounds _ hbz1 hbz2]

/-- A handler-free property with the given name and integer value. -/
def testIntProp (n : String) (i : Int) : Property Unit :=
  ⟨⟨n⟩, [], .mk i 0 "" ⟨0, 0, 0⟩ []⟩

/-- A handler-free property with the given name and vector value. -/
def testVecProp (n : String) (v : R3Vector) : Property Unit :=
  ⟨⟨n⟩, [], .mk 0 0 "" v []⟩

/-- Concrete position-test entity: cell exponent 5 (cell width 32),
cell coordinates (10, 0, 0), offset (1.5, 0, 0). -/
def positionEntity : Entity Unit :=
  ⟨⟨"C"⟩, 1,
   [testIntProp "m_cellbits" 5, testIntProp "m_cellX" 10,
    testIntProp "m_cellY" 0, testIntProp "m_cellZ" 0,
    testVecProp "m_vecOrigin" ⟨3 / 2, 0, 0⟩], [], []⟩

theorem position_formula_witness :
    positionEntity.Position = .ok
      ⟨((10 * 2 ^ (5 : Int).toNat - 16384 : Int) : Rat) + 3 / 2,
       ((0 * 2 ^ (5 : Int).toNat - 16384 : Int) : Rat) + 0,
       ((0 * 2 ^ (5 : Int).toNat - 16384 : Int) : Rat) + 0⟩ :=
  position_formula Unit positionEntity
    (testIntProp "m_cellbits" 5) (testIntProp "m_cellX" 10)
    (testIntProp "m_cellY" 0) (testIntProp "m_cellZ" 0)
    (testVecProp "m_vecOrigin" ⟨3 / 2, 0, 0⟩)
    rfl rfl rfl rfl rfl (by decide) (by decide) (by decide) (by decide)
    (by decide) (by decide) (by decide) (by decide)

/- ## Baseline capture and apply -/

/-- The captured baseline, Go's `map[int]PropertyValue`: an association
list where the most recent insertion comes first. -/
abbrev BaselineMap : Type := List (Nat × PropertyValue)

/-- Baseline lookup (`baseline[idx]`): the most recently recorded value
for an index, if any. -/
def mlookup : BaselineMap → Nat → Option PropertyValue
  | [], _ => none
  | pr :: m, i => if pr.1 = i then some pr.2 else mlookup m i

/-- Lift a handler to the capture state `σ × BaselineMap`: a pre-existing
handler of the entity acts on the outside world only — it cannot touch
the fresh local map of the capture, which only the adders close over. -/
def liftH (h : PropertyUpdateHandler σ) :
    PropertyUpdateHandler (σ × BaselineMap) :=
  fun v sm => (h v sm.1, sm.2)

/-- The `adder` closure of the baseline capture: record the updated
value under the property's index in the captured map. -/
def baselineAdder (i : Nat) : PropertyUpdateHandler (σ × BaselineMap) :=
  fun v sm => (sm.1, (i, v) :: sm.2)

/-- Lift a property to the capture state: same entry and value, lifted
handlers. -/
def Property.lift (p : Property σ) : Property (σ × BaselineMap) :=
  ⟨p.entry, p.updateHandlers.map liftH, p.value⟩

/-- Attach one `adder` per property (the `OnUpdate(adder)` loop of the
capture), `i` being the absolute index of the list head. -/
def attachAdders : List (Property (σ × BaselineMap)) → Nat →
    List (Property (σ × BaselineMap))
  | [], _ => []
  | p :: ps, i => p.OnUpdate (baselineAdder i) :: attachAdders ps (i + 1)

/-- The entity as seen during baseline capture: every callback lifted to
the capture state and one fresh `adder` appended to each property's
handlers. -/
def Entity.withAdders (e : Entity σ) : Entity (σ × BaselineMap) :=
  ⟨e.serverClass, e.id, attachAdders (e.props.map Property.lift) 0,
   e.onCreateFinished.map (fun f sm => (f sm.1, sm.2)),
   e.onDestroy.map (fun f sm => (f sm.1, sm.2))⟩

/-- `initializeBaseline` of the source (shortened to `initBaseline`):
attach a recording observer to every property, run one full
`ApplyUpdate` against the baseline bitstream, then clear every
property's handler list (`updateHandlers = nil`) and return the captured
mapping, together with the updated entity, the outside-world state as
mutated by the entity's own handlers, and the advanced reader. -/
def Entity.initBaseline (e : Entity σ) (dec : Decode) (fuel : Nat)
    (r : BitReader) (s : σ) :
    Except UpdateError (Entity σ × σ × BaselineMap × BitReader) :=
  match e.withAdders.ApplyUpdate dec fuel r (s, []) with
  | .error err => .error err
  | .ok (e', sm, r') =>
    .ok ({ e with props := e'.props.map (fun p => ⟨p.entry, [], p.value⟩) },
      sm.1, sm.2, r')

/-- `applyBaseline`'s per-property write: each captured value is copied
into the corresponding property's current value directly; nothing else
of the property is touched.  (Go iterates the map keys in unspecified
order; the writes target distinct indices, so this pointwise form is
the same function.) -/
def applyBaselineProps (baseline : BaselineMap) :
    List (Property σ) → Nat → List (Property σ)
  | [], _ => []
  | p :: ps, i =>
    (match mlookup baseline i with
     | some v => { p with value := v }
     | none => p) :: applyBaselineProps baseline ps (i + 1)

/-- `applyBaseline` of the source: seed an entity from a previously
captured baseline without re-decoding and without firing any
observer. -/
def Entity.applyBaseline (e : Entity σ) (baseline : BaselineMap) :
    Entity σ :=
  { e with props := applyBaselineProps baseline e.props 0 }

/-- The property list of a capture's resulting entity (`[]` when the
capture failed). -/
def capturedProps :
    Except UpdateError (Entity σ × σ × BaselineMap × BitReader) →
      List (Property σ)
  | .ok out => out.1.props
  | .error _ => []

/-- C8: after `initializeBaseline` returns, every property of the
returned entity has an empty update-handler list — the temporary
baseline-capture observers are all removed and no residual capture
observer (or any other handler) remains attached. -/
theorem capture_clears_handlers (σ : Type) (e : Entity σ) (dec : Decode)
    (fuel : Nat) (r : BitReader) (s : σ) :
    (capturedProps (e.initBaseline dec fuel r s)).all
      (fun p => p.updateHandlers.isEmpty) = true := by
  unfold Entity.initBaseline
  cases e.withAdders.ApplyUpdate dec fuel r (s, []) with
  | error err => rfl
  | ok out =>
    simp [capturedProps, List.all_map, Function.comp, List.isEmpty]

/-- Whether an `Except` computation succeeded. -/
def exceptIsOk {ε α : Type} : Except ε α → Bool
  | .ok _ => true
  | .error _ => false

theorem foldl_liftH (v : PropertyValue) (hs : List (PropertyUpdateHandler σ)) :
    ∀ (s : σ) (m : BaselineMap),
      (hs.map liftH).foldl (fun t h => h v t) (s, m) =
        (hs.foldl (fun t h => h v t) s, m) := by
  induction hs with
  | nil => intro s m; rfl
  | cons h hs ih =>
    intro s m
    simp only [List.map_cons, List.foldl_cons]
    exact ih (h v s) m

theorem fire_lifted (en : flattenedPropEntry)
    (hs : List (PropertyUpdateHandler σ)) (i : Nat) (v : PropertyValue)
    (s : σ) (m : BaselineMap) :
    Property.firePropertyUpdate
        ⟨en, hs.map liftH ++ [baselineAdder i], v⟩ (s, m) =
      (Property.firePropertyUpdate ⟨en, hs, v⟩ s, (i, v) :: m) := by
  simp only [Property.firePropertyUpdate, List.foldl_append, List.foldl_cons,
    List.foldl_nil]
  rw [foldl_liftH]
  rfl

theorem mlookup_append (i : Nat) :
    ∀ a b : BaselineMap,
      mlookup (a ++ b) i =
        match mlookup a i with
        | some v => some v
        | none => mlookup b i := by
  intro a
  induction a with
  | nil => intro b; rfl
  | cons pr a ih =>
    intro b
    simp only [List.cons_append, mlookup]
    by_cases h : pr.1 = i
    · simp [h]
    · simp only [if_neg h]
      exact ih b

theorem get?_set_self {α : Type} (l : List α) (n : Nat) (a : α)
    (h : n < l.length) : (l.set n a).get? n = some a :=
  List.get?_set_eq_of_lt a h

theorem get?_set_other {α : Type} (l : List α) (m n : Nat) (a : α)
    (h : m ≠ n) : (l.set m a).get? n = l.get? n :=
  List.get?_set_ne a l h

theorem attachAdders_length :
    ∀ (ps : List (Property (σ × BaselineMap))) (i : Nat),
      (attachAdders ps i).length = ps.length := by
  intro ps
  induction ps with
  | nil => intro i; rfl
  | cons p ps ih => intro i; simp [attachAdders, ih]

theorem attachAdders_get? :
    ∀ (ps : List (Property (σ × BaselineMap))) (i k : Nat),
      (attachAdders ps i).get? k =
        (ps.get? k).map (fun p => p.OnUpdate (baselineAdder (i + k))) := by
  intro ps
  induction ps with
  | nil => intro i k; simp [attachAdders]
  | cons p ps ih =>
    intro i k
    cases k with
    | zero => simp [attachAdders]
    | succ k =>
      simp only [attachAdders, List.get?_cons_succ]
      rw [ih (i + 1) k]
      have harith : i + 1 + k = i + (k + 1) := by omega
      rw [harith]

theorem applyBaselineProps_get? (b : BaselineMap) :
    ∀ (ps : List (Property σ)) (i k : Nat),
      (applyBaselineProps b ps i).get? k =
        (ps.get? k).map (fun p =>
          match mlookup b (i + k) with
          | some v => { p with value := v }
          | none => p) := by
  intro ps
  induction ps with
  | nil => intro i k; simp [applyBaselineProps]
  | cons p ps ih =>
    intro i k
    cases k with
    | zero => simp [applyBaselineProps]
    | succ k =>
      simp only [applyBaselineProps, List.get?_cons_succ]
      rw [ih (i + 1) k]
      have harith : i + 1 + k = i + (k + 1) := by omega
      rw [harith]

/-- The invariant of a capture run: the capture-side entity has the same
property count and entries as the plain entity, and each capture-side
property's handler list is a lifted list with exactly the adder of its
own index appended. -/
abbrev BaselineRel (eL : Entity (σ × BaselineMap)) (eB : Entity σ) : Prop :=
  eL.props.length = eB.props.length ∧
  ∀ i : Nat, i < eB.props.length →
    ∃ (pL : Property (σ × BaselineMap)) (pB : Property σ)
      (hs : List (PropertyUpdateHandler σ)),
      eL.props.get? i = some pL ∧ eB.props.get? i = some pB ∧
      pL.entry = pB.entry ∧
      pL.updateHandlers = hs.map liftH ++ [baselineAdder i]

theorem withAdders_rel (e1 : Entity σ) (e2 : Entity σ)
    (hentries : e1.props.map Property.entry = e2.props.map Property.entry) :
    BaselineRel e1.withAdders e2 := by
  have hlen : e1.props.length = e2.props.length := by
    have h := congrArg List.length hentries
    simpa using h
  constructor
  · simp [Entity.withAdders, attachAdders_length, hlen]
  · intro i hi
    have hi1 : i < e1.props.length := by omega
    cases hp1 : e1.props.get? i with
    | none =>
      rw [List.get?_eq_none] at hp1
      omega
    | some p1 =>
      cases hp2 : e2.props.get? i with
      | none =>
        rw [List.get?_eq_none] at hp2
        omega
      | some p2 =>
        refine ⟨(p1.lift).OnUpdate (baselineAdder i), p2, p1.updateHandlers,
          ?_, rfl, ?_, ?_⟩
        · simp only [Entity.withAdders]
          rw [attachAdders_get?, List.get?_map, hp1]
          simp
        · have h := congrArg (fun l => l.get? i) hentries
          simp only [List.get?_map, hp1, hp2, Option.map_some'] at h
          have h' : p1.entry = p2.entry := by
            injection h
          simpa [Property.OnUpdate, Property.lift] using h'
        · simp [Property.OnUpdate, Property.lift]

theorem applyProps_capture (dec : Decode) :
    ∀ (idxs : List Int) (eL : Entity (σ × BaselineMap)) (eB : Entity σ)
      (r : BitReader) (s : σ) (m : BaselineMap) (sB : σ)
      (eB' : Entity σ) (sB' : σ) (rB' : BitReader),
      BaselineRel eL eB →
      applyProps dec eB idxs r sB = .ok (eB', sB', rB') →
      ∃ eL' sL' deltas,
        applyProps dec eL idxs r (s, m) = .ok (eL', (sL', deltas ++ m), rB') ∧
        eB'.props.length = eB.props.length ∧
        ∀ i : Nat, i < eB.props.length →
          ∃ pB' pB, eB'.props.get? i = some pB' ∧
            eB.props.get? i = some pB ∧
            pB'.value = (mlookup deltas i).getD pB.value := by
  intro idxs
  induction idxs with
  | nil =>
    intro eL eB r s m sB eB' sB' rB' hrel happ
    simp only [applyProps, Except.ok.injEq, Prod.mk.injEq] at happ
    obtain ⟨he, hsx, hr⟩ := happ
    subst he
    subst hr
    refine ⟨eL, s, [], rfl, rfl, ?_⟩
    intro i hi
    cases hp : eB.props.get? i with
    | none =>
      rw [List.get?_eq_none] at hp
      omega
    | some pB => exact ⟨pB, pB, rfl, rfl, rfl⟩
  | cons idx rest ih =>
    intro eL eB r s m sB eB' sB' rB' hrel happ
    simp only [applyProps] at happ
    by_cases hneg : idx < 0
    · rw [if_pos hneg] at happ
      simp at happ
    · rw [if_neg hneg] at happ
      cases hp : eB.props.get? idx.toNat with
      | none =>
        rw [hp] at happ
        simp at happ
      | some pB =>
        simp only [hp] at happ
        have hlt : idx.toNat < eB.props.length := by
          by_contra hh
          rw [List.get?_eq_none.mpr (by omega)] at hp
          simp at hp
        obtain ⟨hlen, hptw⟩ := hrel
        obtain ⟨pL, pB0, hs0, hgetL, hgetB0, hentry, hhandlers⟩ :=
          hptw idx.toNat hlt
        have hpB0 : pB0 = pB := by
          rw [hp] at hgetB0
          injection hgetB0 with h
          exact h.symm
        subst pB0
        have hfire := fire_lifted pL.entry hs0 idx.toNat
          (dec pB.entry r).1 s m
        rw [← hhandlers] at hfire
        rw [hentry] at hfire
        have hrelmid :
            BaselineRel
              { eL with props := (eL.props.set idx.toNat
                  ⟨pB.entry, pL.updateHandlers, (dec pB.entry r).1⟩) }
              { eB with props := (eB.props.set idx.toNat
                  ⟨pB.entry, pB.updateHandlers, (dec pB.entry r).1⟩) } := by
          refine ⟨by simp [hlen], ?_⟩
          intro j hj
          simp only [List.length_set] at hj
          by_cases hij : idx.toNat = j
          · subst hij
            refine ⟨⟨pB.entry, pL.updateHandlers, (dec pB.entry r).1⟩,
              ⟨pB.entry, pB.updateHandlers, (dec pB.entry r).1⟩, hs0,
              ?_, ?_, rfl, hhandlers⟩
            · exact get?_set_self _ _ _ (by omega)
            · exact get?_set_self _ _ _ (by omega)
          · obtain ⟨pL2, pB2, hs2, hL2, hB2, hent2, hh2⟩ := hptw j hj
            refine ⟨pL2, pB2, hs2, ?_, ?_, hent2, hh2⟩
            · rw [get?_set_other _ _ _ _ hij]
              exact hL2
            · rw [get?_set_other _ _ _ _ hij]
              exact hB2
        obtain ⟨eL', sL', deltas', happL, hlen', hptw'⟩ :=
          ih _ _ (dec pB.entry r).2
            (Property.firePropertyUpdate ⟨pB.entry, hs0, (dec pB.entry r).1⟩ s)
            ((idx.toNat, (dec pB.entry r).1) :: m) _ _ _ _ hrelmid happ
        refine ⟨eL', sL', deltas' ++ [(idx.toNat, (dec pB.entry r).1)],
          ?_, ?_, ?_⟩
        · simp only [applyProps, if_neg hneg, hgetL]
          rw [hentry, hfire]
          rw [List.append_assoc]
          exact happL
        · rw [hlen']
          simp
        · intro i hi
          have hi' : i < (eB.props.set idx.toNat
              ⟨pB.entry, pB.updateHandlers, (dec pB.entry r).1⟩).length := by
            simp
            omega
          obtain ⟨pB', pBmid, hget', hgetmid, hval⟩ := hptw' i hi'
          cases hporig : eB.props.get? i with
          | none =>
            rw [List.get?_eq_none] at hporig
            omega
          | some pOrig =>
            refine ⟨pB', pOrig, hget', rfl, ?_⟩
            rw [mlookup_append]
            cases hml : mlookup deltas' i with
            | some w =>
              rw [hml] at hval
              simpa using hval
            | none =>
              rw [hml] at hval
              simp only [mlookup]
              by_cases hij : idx.toNat = i
              · subst hij
                rw [get?_set_self _ _ _ (by omega)] at hgetmid
                have hmid : pBmid =
                    ⟨pB.entry, pB.updateHandlers, (dec pB.entry r).1⟩ := by
                  injection hgetmid with h
                  exact h.symm
                subst hmid
                simpa using hval
              · rw [get?_set_other _ _ _ _ hij] at hgetmid
                rw [hporig] at hgetmid
                have hmid : pBmid = pOrig := by
                  injection hgetmid with h
                  exact h.symm
                subst hmid
                simpa [hij] using hval

/-- C3: capture-then-seed equals direct application.  For any entity
`e1` and any entity `e2` with identical property layout (equal schema
entry lists), if directly applying an update record to `e2` succeeds,
then `initializeBaseline` on `e1` over the same record succeeds with the
same final reader position, and seeding `e2` from the captured baseline
via `applyBaseline` yields exactly the property values of the direct
application — and `applyBaseline` leaves every update-handler list
unchanged (it writes values directly; it takes no handler state at all,
so no observer can fire). -/
theorem baseline_roundtrip (σ : Type) (e1 e2 : Entity σ) (dec : Decode)
    (fuel : Nat) (r : BitReader) (s : σ)
    (hentries : e1.props.map Property.entry = e2.props.map Property.entry)
    (hok : exceptIsOk (e2.ApplyUpdate dec fuel r s) = true) :
    ∃ e1' s1' m r' e2' s2',
      e1.initBaseline dec fuel r s = .ok (e1', s1', m, r') ∧
      e2.ApplyUpdate dec fuel r s = .ok (e2', s2', r') ∧
      (e2.applyBaseline m).props.map Property.value =
        e2'.props.map Property.value ∧
      (e2.applyBaseline m).props.map Property.updateHandlers =
        e2.props.map Property.updateHandlers := by
  cases h2 : e2.ApplyUpdate dec fuel r s with
  | error err =>
    rw [h2] at hok
    simp [exceptIsOk] at hok
  | ok out =>
    obtain ⟨e2', s2', r'⟩ := out
    have happ2 : applyProps dec e2
        (readFieldIndices fuel (r.readBit).2 (-1) (r.readBit).1).1
        (readFieldIndices fuel (r.readBit).2 (-1) (r.readBit).1).2 s =
        .ok (e2', s2', r') := by
      simpa only [Entity.ApplyUpdate] using h2
    obtain ⟨eL', sL', deltas, happL, hlen, hptw⟩ :=
      applyProps_capture dec _ e1.withAdders e2 _ s [] s e2' s2' r'
        (withAdders_rel e1 e2 hentries) happ2
    rw [List.append_nil] at happL
    have happW : e1.withAdders.ApplyUpdate dec fuel r (s, []) =
        .ok (eL', (sL', deltas), r') := by
      simpa only [Entity.ApplyUpdate] using happL
    refine ⟨{ e1 with props :=
        (eL'.props.map (fun p => ⟨p.entry, [], p.value⟩)) },
      sL', deltas, r', e2', s2', ?_, rfl, ?_, ?_⟩
    · simp only [Entity.initBaseline, happW]
    · rw [List.ext_get?_iff]
      intro n
      rw [List.get?_map, List.get?_map]
      simp only [Entity.applyBaseline]
      rw [applyBaselineProps_get?]
      by_cases hn : n < e2.props.length
      · obtain ⟨pB', pB, hget', hgetB, hval⟩ := hptw n hn
        rw [hgetB, hget']
        simp only [Option.map_some']
        rw [hval]
        simp only [Nat.zero_add]
        cases hml : mlookup deltas n with
        | some v => simp [hml]
        | none => simp [hml]
      · have hn1 : e2.props.get? n = none := List.get?_eq_none.mpr (by omega)
        have hn2 : e2'.props.get? n = none := List.get?_eq_none.mpr (by omega)
        rw [hn1, hn2]
        rfl
    · rw [List.ext_get?_iff]
      intro n
      rw [List.get?_map, List.get?_map]
      simp only [Entity.applyBaseline]
      rw [applyBaselineProps_get?]
      cases hB : e2.props.get? n with
      | none => rfl
      | some p =>
        simp only [Option.map_some']
        cases hml : mlookup deltas (0 + n) <;> simp [hml]

/-- A bitstream encoding (with `new_way` false) the changed-index list
`[0]` followed by the end marker: index bits 0000000, then the sentinel
1111111 + 1111111 (pattern 96 extension making the offset 0xFFF). -/
def testReaderIdx0 : BitReader := ⟨fun n => decide (8 ≤ n ∧ n ≤ 21), 0⟩

theorem baseline_roundtrip_witness :
    (testEntity1.props.map Property.entry =
      testEntity1.props.map Property.entry) ∧
    exceptIsOk (testEntity1.ApplyUpdate testDecode 3 testReaderIdx0 ()) =
      true ∧
    ∃ e1' s1' m r' e2' s2',
      testEntity1.initBaseline testDecode 3 testReaderIdx0 () =
        .ok (e1', s1', m, r') ∧
      testEntity1.ApplyUpdate testDecode 3 testReaderIdx0 () =
        .ok (e2', s2', r') ∧
      (testEntity1.applyBaseline m).props.map Property.value =
        e2'.props.map Property.value ∧
      (testEntity1.applyBaseline m).props.map Property.updateHandlers =
        testEntity1.props.map Property.updateHandlers :=
  ⟨rfl, by decide,
    baseline_roundtrip Unit testEntity1 testEntity1 testDecode 3
      testReaderIdx0 () rfl (by decide)⟩
